import Mathlib

/-!
Shallow embedding of the viewport/layout engine, command log, replay engine,
colorizer resolution, sheet copying, cell wrapping and the JSON loader of the
visidata repository (src/visidata/_sheet.py, src/visidata/cmdlog.py,
src/visidata/loaders/json.py), together with proofs settling the claims about
them.  Python machine integers are modelled as Int, Python lists as Lean
lists, Python dicts as association lists in insertion order, and raising code
returns Except.
-/

namespace VisiData

/-- Python exceptions that the embedded code can raise.  `fuelOut` is an
embedding artifact marking exhaustion of the explicit bound given to a
`while True` loop; it is not a Python exception. -/
inductive PyErr where
  | valueError
  | nameError
  | keyError
  | fuelOut
deriving DecidableEq, Repr

/-- One display column of a sheet (visidata Column), restricted to the fields
read by `_sheet.py`: `name` (possibly containing newline characters for
stacked headers), `width` (`None` = auto-compute on first draw), and the
`keycol`/`hidden` flags.  `maxWidth` models the result of
`Column.getMaxWidth(visibleRows)` (Modelled from the spec: the Column class is
not in src; §4.2 says the width is computed once from the maximum rendered
width of the visible rows). -/
structure Col where
  name : List Char
  width : Option Int
  maxWidth : Int
  keycol : Bool
  hidden : Bool
deriving DecidableEq, Repr

/-- Option values read by the layout code: the lengths of the
`disp_more_left`, `disp_more_right` and `disp_column_sep` option strings, and
`default_width`. -/
structure Opts where
  moreLeftLen : Nat
  moreRightLen : Nat
  sepColWidth : Nat
  default_width : Int
deriving DecidableEq, Repr

/-- `Sheet.keyCols`: the visible key columns, `[c for c in self.columns if
c.keycol and not c.hidden]`. -/
def keyCols (cs : List Col) : List Col :=
  cs.filter (fun c => c.keycol && !c.hidden)

/-- `Sheet.visibleCols`: `self.keyCols + [c for c in self.columns if not
c.hidden and not c.keycol]`. -/
def visibleCols (cs : List Col) : List Col :=
  keyCols cs ++ cs.filter (fun c => !c.hidden && !c.keycol)

/-- The sheet state read and written by `checkCursor`/`calcColLayout`.
`visCols` is the sheet's visible-column list (`self.visibleCols`; every
element of it has `hidden = false`, and `calcColLayout` mutates the `width`
of its elements in place, which we model by returning an updated list).
`rowLayoutLen` is `len(self.rowLayout)`; `visibleColLayout` is the dict
`[vcolidx] -> [x, w]` as an association list in insertion order.  The window
dimensions are naturals (curses window sizes are non-negative). -/
structure LayoutState where
  visCols : List Col
  nRows : Nat
  cursorRowIndex : Int
  cursorVisibleColIndex : Int
  topRowIndex : Int
  leftVisibleColIndex : Int
  rightVisibleColIndex : Int
  rowLayoutLen : Nat
  visibleColLayout : List (Nat × Int × Int)
  windowWidth : Nat
  windowHeight : Nat
deriving DecidableEq, Repr

/-- `len(col.name.split(chr(10)))`: one more than the number of newline
characters in the name. -/
def nameLines (c : Col) : Nat := c.name.count '\n' + 1

/-- `Sheet.nHeaderRows`: `max(len(col.name.split(nl)) for col in vcols) if
vcols else 0`. -/
def nHeaderRows (st : LayoutState) : Nat :=
  match st.visCols with
  | [] => 0
  | _ => (st.visCols.map nameLines).foldl Nat.max 0

/-- Length of the Python slice `xs[a:b]` of a list of length `n` (negative
indices count from the end; out-of-range indices clamp). -/
def pySliceLen (n : Nat) (a b : Int) : Nat :=
  let conv : Int → Int := fun i => if i < 0 then max ((n : Int) + i) 0 else min i (n : Int)
  (max (conv b - conv a) 0).toNat

/-- `Sheet.nVisibleRows`: `len(self.rowLayout) or (self.windowHeight -
self.nHeaderRows - self.nFooterRows)` with `nFooterRows = 1`. -/
def nVisibleRowsI (st : LayoutState) : Int :=
  if st.rowLayoutLen ≠ 0 then (st.rowLayoutLen : Int)
  else (st.windowHeight : Int) - (nHeaderRows st : Int) - 1

/-- `len(self.visibleRows) = len(self.rows[topRowIndex :
topRowIndex+nVisibleRows])`. -/
def visibleRowsLen (st : LayoutState) : Nat :=
  pySliceLen st.nRows st.topRowIndex (st.topRowIndex + nVisibleRowsI st)

/-- The body of `Sheet.calcColLayout`'s `for vcolidx in range(0,
self.nVisibleCols)` loop, processing the visible columns from index `i` at
accumulated x-position `x`.  Returns the entries added to
`visibleColLayout`, the column list with any delayed widths stored, and
`some j` when the loop exited via `break` at index `j` (`none` when it ran
to completion).  The membership test `col in self.keyCols` is `c.keycol`
here, because every element of `visibleCols` has `hidden = false`.
`layoutCol` is the per-column part: store a delayed width if the column has
none and a row is materialized, and return the column together with its
effective width (at least 1 for key columns). -/
def layoutCol (o : Opts) (hasVisRows : Bool) (nVis : Nat) (i : Nat) (c : Col) : Col × Int :=
  let c1 := if c.width = none && hasVisRows then
      let w0 : Int := c.maxWidth + ((o.moreLeftLen : Int) + (o.moreRightLen : Int))
      { c with width := some (if i ≠ nVis - 1 then min w0 o.default_width else w0) }
    else c
  let width0 := c1.width.getD o.default_width
  (c1, if c1.keycol then max width0 1 else width0)

def calcAux (o : Opts) (winWidth : Int) (left : Int) (hasVisRows : Bool) (nVis : Nat) :
    Nat → Int → List Col → (List (Nat × Int × Int) × List Col × Option Nat)
  | _, _, [] => ([], [], none)
  | i, x, c :: rest =>
    let p := layoutCol o hasVisRows nVis i c
    let add := p.1.keycol || (left ≤ (i : Int))
    let es0 : List (Nat × Int × Int) := if add then [(i, x, min p.2 (winWidth - x))] else []
    let x1 := if add then x + p.2 + (o.sepColWidth : Int) else x
    if winWidth - 1 < x1 then (es0, p.1 :: rest, some i)
    else
      let r := calcAux o winWidth left hasVisRows nVis (i + 1) x1 rest
      (es0 ++ r.1, p.1 :: r.2.1, r.2.2)

/-- `Sheet.calcColLayout`: rebuild `visibleColLayout` and set
`rightVisibleColIndex` to the index of the last iterated column (0 when
there are no visible columns, mirroring the pre-loop `vcolidx = 0`). -/
def calcColLayout (o : Opts) (st : LayoutState) : LayoutState :=
  let hasVisRows := 0 < visibleRowsLen st
  let r := calcAux o (st.windowWidth : Int) st.leftVisibleColIndex hasVisRows
      st.visCols.length 0 0 st.visCols
  let right : Int := (r.2.2.getD (st.visCols.length - 1) : Nat)
  { st with visibleColLayout := r.1, visCols := r.2.1, rightVisibleColIndex := right }

/-- The `while True` horizontal-scroll loop at the end of
`Sheet.checkCursor`, with an explicit fuel bound.  `min()`/`max()` of the
empty `visibleColLayout` dict raises ValueError; the
`self.cursorVisibleColIndex < mincolidx` branch raises NameError because the
source references the undefined name `mincolid`; a missing dict key raises
KeyError. -/
def checkLoop (o : Opts) : Nat → LayoutState → Except PyErr LayoutState
  | 0, _ => Except.error PyErr.fuelOut
  | fuel + 1, st =>
    if st.leftVisibleColIndex = st.cursorVisibleColIndex then Except.ok st
    else
      let st := calcColLayout o st
      match st.visibleColLayout with
      | [] => Except.error PyErr.valueError
      | e :: es =>
        let mincolidx : Int := es.foldl (fun m t => min m (t.1 : Int)) (e.1 : Int)
        let maxcolidx : Int := es.foldl (fun m t => max m (t.1 : Int)) (e.1 : Int)
        if st.cursorVisibleColIndex < mincolidx then Except.error PyErr.nameError
        else if maxcolidx < st.cursorVisibleColIndex then
          let step := max ((maxcolidx - st.cursorVisibleColIndex).fdiv 2) 1
          checkLoop o fuel { st with leftVisibleColIndex := st.leftVisibleColIndex + step }
        else
          match (e :: es).find? (fun t => (t.1 : Int) = st.cursorVisibleColIndex) with
          | none => Except.error PyErr.keyError
          | some t =>
            if t.2.1 + t.2.2 < (st.windowWidth : Int) then Except.ok st
            else checkLoop o fuel { st with leftVisibleColIndex := st.leftVisibleColIndex + 1 }

/-- `Sheet.checkCursor`: clamp the row cursor, column cursor and top row,
then adjust the vertical and horizontal scroll.  The fuel given to the final
loop is one more than the (column-cursor minus left-offset) gap, which the
loop closes by exactly one column per iteration. -/
def checkCursor (o : Opts) (st : LayoutState) : Except PyErr LayoutState :=
  let nVis : Int := (st.visCols.length : Int)
  let cr := if st.nRows = 0 ∨ st.cursorRowIndex ≤ 0 then 0
            else if (st.nRows : Int) ≤ st.cursorRowIndex then (st.nRows : Int) - 1
            else st.cursorRowIndex
  let cc := if st.cursorVisibleColIndex ≤ 0 then 0
            else if nVis ≤ st.cursorVisibleColIndex then nVis - 1
            else st.cursorVisibleColIndex
  let top := if st.topRowIndex ≤ 0 then 0
             else if (st.nRows : Int) - 1 < st.topRowIndex then (st.nRows : Int) - 1
             else st.topRowIndex
  let st1 := { st with cursorRowIndex := cr, cursorVisibleColIndex := cc, topRowIndex := top }
  let x := cc - st1.leftVisibleColIndex
  let y := cr - top + (nHeaderRows st1 : Int)
  let st2 := if y < (nHeaderRows st1 : Int) then { st1 with topRowIndex := cr }
             else if (nHeaderRows st1 : Int) + nVisibleRowsI st1 - 1 < y then
               { st1 with topRowIndex := cr - nVisibleRowsI st1 + 1 }
             else st1
  if x ≤ 0 then Except.ok { st2 with leftVisibleColIndex := cc }
  else checkLoop o ((cc - st2.leftVisibleColIndex).toNat + 1) st2

/-! Cell wrapping (`splitcell` in `_sheet.py`).  Python strings are modelled
as lists of characters. -/

/-- Python whitespace characters (the set `str.split()` splits on). -/
def isWS (c : Char) : Bool :=
  c = ' ' || c = '\n' || c = '\t' || c = '\r' || c = '\x0b' || c = '\x0c'

/-- The whitespace-delimited words of a string: maximal runs of
non-whitespace characters, in order. -/
def words : List Char → List (List Char)
  | [] => []
  | c :: cs =>
    if isWS c then words cs
    else (c :: cs.takeWhile (fun d => !isWS d)) :: words (cs.dropWhile (fun d => !isWS d))
termination_by s => s.length
decreasing_by
  · simp only [List.length_cons]; exact Nat.lt_succ_of_le (Nat.le_refl _)
  · have h : ∀ (p : Char → Bool) (l : List Char), (l.dropWhile p).length ≤ l.length := by
      intro p l
      induction l with
      | nil => simp [List.dropWhile]
      | cons a t ih =>
        simp only [List.dropWhile]
        cases p a with
        | false => simp
        | true => simpa using Nat.le_succ_of_le ih
    simp only [List.length_cons]
    exact Nat.lt_succ_of_le (h _ _)

/-- Join a list of strings with single copies of the separator character
(`sep.join` in Python). -/
def joinWith (sep : Char) : List (List Char) → List Char
  | [] => []
  | [w] => w
  | w :: ws => w ++ sep :: joinWith sep ws

/-- Whitespace normalization: the words of the string joined by single
spaces. -/
def normalizeWS (s : List Char) : List Char := joinWith ' ' (words s)

/-- Split on newline characters, keeping empty segments (line breaks are
modelled as newline characters). -/
def splitNl : List Char → List (List Char)
  | [] => [[]]
  | c :: cs =>
    if c = '\n' then [] :: splitNl cs
    else
      match splitNl cs with
      | [] => [[c]]
      | h :: t => (c :: h) :: t

/-- Python `str.splitlines()`: split on line breaks, with no empty final
segment for a trailing line break and `[]` for the empty string. -/
def pySplitlines (s : List Char) : List (List Char) :=
  match s with
  | [] => []
  | _ =>
    let r := splitNl s
    if r.getLast? = some [] then r.dropLast else r

/-- Width of a line assembled from `ws` words separated by single spaces. -/
def lineLen (ws : List (List Char)) : Nat :=
  match ws with
  | [] => 0
  | _ => (ws.map List.length).sum + (ws.length - 1)

/-- Greedy word-filling: pack words into lines of at most `w` columns, never
breaking a word (a word longer than `w` occupies a line of its own).
`cur` is the line being assembled. -/
def greedy (w : Int) : List (List Char) → List (List Char) → List (List (List Char))
  | cur, [] => if cur = [] then [] else [cur]
  | cur, x :: xs =>
    if cur = [] then greedy w [x] xs
    else if (lineLen cur : Int) + 1 + (x.length : Int) ≤ w then greedy w (cur ++ [x]) xs
    else cur :: greedy w [x] xs
termination_by _ xs => xs.length

/-- Modelled from the spec: `textwrap.wrap(L, width=w, break_long_words=False,
replace_whitespace=False)` (Python stdlib, not in src).  Per §4.3 it
word-wraps one line to the given width, never breaking a word: greedy filling
of the line's whitespace-delimited words. -/
def textwrapWrap (w : Int) (L : List Char) : List (List Char) :=
  (greedy w [] (words L)).map (joinWith ' ')

/-- `splitcell(s, width)` from `_sheet.py`: `[s]` when the width is
non-positive or `options.textwrap_cells` is off, else the concatenation of
the word-wrapped pieces of each line of `s`. -/
def splitcell (s : List Char) (width : Int) (textwrap_cells : Bool) : List (List Char) :=
  if width ≤ 0 || !textwrap_cells then [s]
  else (pySplitlines s).flatMap (textwrapWrap width)

/-! The command log (`cmdlog.py`): logging finished commands. -/

/-- A `CommandLogRow`: the namedlist fields of one log entry.  `undofuncs`
holds undo callbacks (opaque, not modelled); the `err` annotation in
`afterExecSheet` does `entry[-1] += ' [err]'`, which extends this final
field element-wise with the characters of the annotation, so the field is
modelled as the list of characters appended to it. -/
structure LogEntry where
  sheet : String
  col : String
  row : String
  longname : String
  input : String
  keystrokes : String
  comment : String
  undofuncs : List Char
deriving DecidableEq, Repr

/-- The `nonLogged` prefix list of `cmdlog.py`. -/
def nonLogged : List String :=
  ["forget", "exec-longname", "undo", "redo", "quit",
   "show", "error", "errors", "statuses", "options", "threads", "cmdlog", "jump",
   "replay", "stop", "pause", "cancel", "advance", "save-cmdlog",
   "go-", "search", "scroll", "prev", "next", "page", "start", "end", "zoom",
   "resize", "visibility",
   "suspend", "redraw", "no-op", "help", "syscopy", "syspaste", "sysopen",
   "profile", "toggle"]

/-- Python `longname.startswith(n)` on the characters of the strings. -/
def strStartsWith (s n : String) : Bool :=
  n.toList.isPrefixOf s.toList

/-- `isLoggableCommand(longname)`: false exactly when some `nonLogged` entry
is a leading substring of the longname. -/
def isLoggableCommand (longname : String) : Bool :=
  !(nonLogged.any (fun n => strStartsWith longname n))

/-- The `[err]` annotation applied to a pending entry when the command
reported an error text (`vd.activeCommand[-1] += ' [%s]' % err`; index -1 of
the namedlist is `undofuncs`). -/
def annotateErr (cmd : LogEntry) (err : String) : LogEntry :=
  if err ≠ "" then
    { cmd with undofuncs := cmd.undofuncs ++ (" [" ++ err ++ "]").toList }
  else cmd

/-- The state touched by `CommandLog.afterExecSheet`: the pending entry
`vd.activeCommand`, the global log's rows (`self.rows`), the acting sheet's
per-sheet log rows (`sheet.cmdlog_sheet.rows`), the session history log
(`vd.sessionlog`, appended to when `options.cmdlog_histfile` is set). -/
structure CmdLogState where
  activeCommand : Option LogEntry
  globalLog : List LogEntry
  sheetLog : List LogEntry
  sessionLog : List LogEntry
  histfileConfigured : Bool
deriving DecidableEq, Repr

/-- `CommandLog.afterExecSheet(sheet, escaped, err)`.  `selfIsSheet` is the
`self is sheet` identity test (the acting sheet is the command-log sheet
itself). -/
def afterExecSheet (st : CmdLogState) (selfIsSheet escaped : Bool) (err : String) :
    CmdLogState :=
  match st.activeCommand with
  | none => st
  | some cmd0 =>
    let cmd := annotateErr cmd0 err
    let st1 :=
      if !escaped && isLoggableCommand cmd.longname && !selfIsSheet then
        { st with globalLog := st.globalLog ++ [cmd],
                  sheetLog := st.sheetLog ++ [cmd],
                  sessionLog := if st.histfileConfigured then st.sessionLog ++ [cmd]
                                else st.sessionLog }
      else st
    { st1 with activeCommand := none }

/-! The replay engine (`CommandLog.replay_sync` / `cancel` in `cmdlog.py`). -/

/-- The outcome of `replayOne` on one log entry: `ok` (executed, no escape),
`escaped` (executed, the command signalled an abort — `replayOne` returns
True), or `raises` (an unresolved sheet/row/column reference made
`moveToReplayContext` raise, or the command itself raised). -/
inductive ROutcome where
  | ok
  | escaped
  | raises
deriving DecidableEq, Repr

/-- The `while self.cursorRowIndex < len(self.rows)` loop of `replay_sync`,
starting at entry index `i` with `cur` modelling whether
`CommandLog.currentReplay` is still set.  `ext j = true` models an external
`cancel()` (stop-replay from the UI thread) landing before iteration `j`'s
`currentReplay is None` check: `cancel` clears `currentReplay`.  Returns the
final `currentReplay`, the trace of entry indices handed to `replayOne`, and
the Python return value (`some true` for the cancel-on-failure returns,
`none` for the `replay canceled` and normal-completion returns).  The fuel
is `len(rows) - i`, the exact number of remaining iterations. -/
def replayAux (entries : List ROutcome) (ext : Nat → Bool) :
    Nat → Nat → Bool → List Nat → (Bool × List Nat × Option Bool)
  | 0, _, _, tr => (false, tr, none)
  | fuel + 1, i, cur, tr =>
    let cur := if ext i then false else cur
    if cur = false then (false, tr, none)
    else
      match entries.get? i with
      | none => (false, tr, none)
      | some o =>
        let tr := tr ++ [i]
        match o with
        | ROutcome.escaped => (false, tr, some true)
        | ROutcome.raises => (false, tr, some true)
        | ROutcome.ok => replayAux entries ext fuel (i + 1) cur tr

/-- `CommandLog.replay_sync`: replay all entries from index 0 with
`currentReplay` set. -/
def replay_sync (entries : List ROutcome) (ext : Nat → Bool) :
    Bool × List Nat × Option Bool :=
  replayAux entries ext entries.length 0 true []

/-! Colorizer resolution (`Sheet.getColorizers` / `Sheet.colorize`). -/

/-- The result of invoking a colorizer's predicate `func(sheet, col, row,
value)`: it may raise (caught and reported by `colorize`), return a falsy
value (no match), or return a truthy value (used as the style when the
colorizer declares no `coloropt`). -/
inductive FRes where
  | raises
  | falsy
  | truthy (v : String)
deriving DecidableEq, Repr

/-- One colorizer rule: precedence, optional style identifier, and the
predicate.  Python functions compare by identity inside the `set()` of
`getColorizers`, so the predicate is represented by an identifier `func`
interpreted by an environment passed to `colorize`. -/
structure Colorizer where
  precedence : Int
  coloropt : Option String
  func : Nat
deriving DecidableEq, Repr

/-- Stable insertion of a colorizer into a precedence-descending list:
placed after strictly higher precedences and before lower-or-equal ones
appearing later in the enumeration. -/
def insDesc (x : Colorizer) : List Colorizer → List Colorizer
  | [] => [x]
  | y :: ys => if x.precedence < y.precedence then y :: insDesc x ys else x :: y :: ys

/-- Python's stable `sorted(..., key=lambda c: c.precedence, reverse=True)`:
precedence descending, ties kept in input order. -/
def sortDesc : List Colorizer → List Colorizer
  | [] => []
  | x :: xs => insDesc x (sortDesc xs)

/-- `Sheet.getColorizers` applied to one enumeration `enum` of the collected
`set()` of colorizers: the sorted enumeration.  The set's enumeration order
is not specified by Python, so `enum` (any permutation of the deduplicated
declaration list) is the function's input. -/
def getColorizers (enum : List Colorizer) : List Colorizer :=
  sortDesc enum

/-- The color stack built by `Sheet.colorize`: walk the sorted colorizers,
skip predicates that raise or return falsy, and push `coloropt` (or the
truthy result when no `coloropt` is declared) for each match. -/
def colorStack {α : Type} (interp : Nat → α → FRes) (cs : List Colorizer) (inp : α) :
    List String :=
  cs.foldl (fun stack c =>
    match interp c.func inp with
    | FRes.raises => stack
    | FRes.falsy => stack
    | FRes.truthy v => stack ++ [c.coloropt.getD v]) []

/-- `Sheet.colorize`: the composed style of the stack.  Modelled from the
spec: `colors.resolve_colors` is not in src; per §4.4 it is a deterministic
composition of the stacked styles, represented here by the stack itself. -/
def colorize {α : Type} (interp : Nat → α → FRes) (enum : List Colorizer) (inp : α) :
    List String :=
  colorStack interp (getColorizers enum) inp

/-! Sheet design copy (`Sheet.__copy__`). -/

/-- A sheet as seen by `Sheet.__copy__`: rows (opaque), columns, and the
viewport cursors.  Modelled from the spec: `BaseSheet.__copy__` is not in
src; per §4.1 the design copy is a fresh sheet whose viewport starts at the
origin, so the base copy contributes zero cursors and `Sheet.__copy__`'s own
resets of `topRowIndex`/`cursorRowIndex` are applied on top. -/
structure CSheet (ρ : Type) where
  rows : List ρ
  columns : List Col
  cursorRowIndex : Int
  cursorVisibleColIndex : Int
  topRowIndex : Int
  leftVisibleColIndex : Int
deriving DecidableEq, Repr

/-- `copy.copy` of a Column: a fresh object with the same attribute values. -/
def copyCol (c : Col) : Col := c

/-- `Sheet.setKeys(cols)` applied to one column: set its `keycol` flag. -/
def setKeyFlag (c : Col) : Col := { c with keycol := true }

/-- `Sheet.__copy__`: zero rows; copies of the visible key columns first with
`setKeys` re-applied, then copies of the remaining columns (`c not in
self.keyCols`); cursor and scroll at the origin (`ret.topRowIndex =
ret.cursorRowIndex = 0` in src, the column cursors from the modelled fresh
base copy). -/
def sheetCopy {ρ : Type} (s : CSheet ρ) : CSheet ρ :=
  let cols1 := (keyCols s.columns).map (fun c => setKeyFlag (copyCol c))
  let cols2 := (s.columns.filter (fun c => !(keyCols s.columns).contains c)).map copyCol
  { rows := [], columns := cols1 ++ cols2, cursorRowIndex := 0,
    cursorVisibleColIndex := 0, topRowIndex := 0, leftVisibleColIndex := 0 }

/-! Replay cursor movement (`moveToRow` / `moveToCol` in `cmdlog.py`). -/

/-- `moveToRow(vs, rowstr)` with the row reference already resolved by
`getRowIndexFromStr` to `rowidx` (`none` when neither key string nor integer
matched).  When `options.replay_movement` is set and at least one step is
needed, the loop body runs `while not self.delay(0.5)` — but `self` is not
defined in this function (its receiver is `vs`), so the first step raises
NameError. -/
def moveToRow (replay_movement : Bool) (cursorRowIndex : Int) (rowidx : Option Int) :
    Except PyErr (Int × Bool) :=
  match rowidx with
  | none => Except.ok (cursorRowIndex, false)
  | some r =>
    if replay_movement then
      if cursorRowIndex = r then Except.ok (cursorRowIndex, true)
      else Except.error PyErr.nameError
    else Except.ok (r, true)

/-- `moveToCol(vs, colstr)` with the column reference already resolved to
`vcolidx`; same shape (and same undefined-`self` NameError) as
`moveToRow`. -/
def moveToCol (replay_movement : Bool) (cursorVisibleColIndex : Int) (vcolidx : Option Int) :
    Except PyErr (Int × Bool) :=
  match vcolidx with
  | none => Except.ok (cursorVisibleColIndex, false)
  | some r =>
    if replay_movement then
      if cursorVisibleColIndex = r then Except.ok (cursorVisibleColIndex, true)
      else Except.error PyErr.nameError
    else Except.ok (r, true)

/-! The JSON loader (`JsonSheet.addRow` in `loaders/json.py`). -/

/-- A parsed JSON value (only its shape matters to `addRow`). -/
inductive JVal where
  | null
  | bool (b : Bool)
  | num (n : Int)
  | str (s : String)
  | arr (n : Nat)
deriving DecidableEq, Repr

/-- A row handed to `JsonSheet.addRow`: a JSON object (a dict, modelled as
its key/value pairs in insertion order) or any non-dict value. -/
inductive JRow where
  | obj (kvs : List (String × JVal))
  | other (v : JVal)
deriving DecidableEq, Repr

/-- A column created by the JSON loader (`ColumnItem(k,
type=deduceType(row[k]))`); the type tag is whatever the supplied
type-deduction function returns. -/
structure JCol (τ : Type) where
  name : String
  ty : τ

/-- The `JsonSheet` state touched by `addRow`: rows, the `colnames` dict
(keys in insertion order) and the column list. -/
structure JState (τ : Type) where
  rows : List JRow
  colnames : List String
  columns : List (JCol τ)

/-- Python `list.insert(i, x)`: negative indices count from the end,
out-of-range indices clamp. -/
def pyInsert {α : Type} (xs : List α) (i : Int) (x : α) : List α :=
  let n : Int := xs.length
  let j := if i < 0 then max (n + i) 0 else min i n
  xs.take j.toNat ++ x :: xs.drop j.toNat

/-- `Sheet.addRow(row, index)`: append when `index` is None, else
`rows.insert(index, row)`; returns the row. -/
def sheetAddRow (rows : List JRow) (row : JRow) (index : Option Int) : List JRow :=
  match index with
  | none => rows ++ [row]
  | some i => pyInsert rows i row

/-- One iteration of `JsonSheet.addRow`'s `for k in row` loop: a key not in
`colnames` registers itself and appends one new `ColumnItem` (`addColumn` on
a fresh truthy column appends at the end). -/
def jsonStep {τ : Type} (deduce : JVal → τ) (acc : List String × List (JCol τ))
    (kv : String × JVal) : List String × List (JCol τ) :=
  if acc.1.contains kv.1 then acc
  else (acc.1 ++ [kv.1], acc.2 ++ [⟨kv.1, deduce kv.2⟩])

/-- `JsonSheet.addRow(row, index)`: `super().addRow` always runs; for a dict
row each previously unseen key gets one new column and the row is returned;
a non-dict row adds no columns and the method falls off the end (returns
None).  `deduce` is the external `deduceType`. -/
def jsonAddRow {τ : Type} (deduce : JVal → τ) (st : JState τ) (row : JRow)
    (index : Option Int) : JState τ × Option JRow :=
  let rows := sheetAddRow st.rows row index
  match row with
  | JRow.obj kvs =>
    let r := kvs.foldl (jsonStep deduce) (st.colnames, st.columns)
    ({ rows := rows, colnames := r.1, columns := r.2 }, some row)
  | JRow.other _ => ({ rows := rows, colnames := st.colnames, columns := st.columns }, none)

/-! Concrete option values and sheet states used to instantiate the
theorems below. -/

/-- Default-flavoured option values: one-character `disp_more_left`,
`disp_more_right` and `disp_column_sep`, `default_width` 20. -/
def optsW : Opts := { moreLeftLen := 1, moreRightLen := 1, sepColWidth := 1, default_width := 20 }

/-- A visible key column of width 1. -/
def keyColW : Col := { name := [], width := some 1, maxWidth := 0, keycol := true, hidden := false }

/-- A visible non-key column of width 4. -/
def plainColW : Col := { name := [], width := some 4, maxWidth := 0, keycol := false, hidden := false }

/-- Two key columns in a one-cell-wide window: the layout loop breaks after
the first key column. -/
def stC2 : LayoutState :=
  { visCols := [keyColW, keyColW], nRows := 0, cursorRowIndex := 0,
    cursorVisibleColIndex := 0, topRowIndex := 0, leftVisibleColIndex := 0,
    rightVisibleColIndex := 0, rowLayoutLen := 0, visibleColLayout := [],
    windowWidth := 1, windowHeight := 25 }

/-- A sheet with zero visible columns whose column cursor sits at 2 (for
example after the columns were hidden). -/
def stC1 : LayoutState :=
  { visCols := [], nRows := 0, cursorRowIndex := 0,
    cursorVisibleColIndex := 2, topRowIndex := 0, leftVisibleColIndex := 0,
    rightVisibleColIndex := 0, rowLayoutLen := 0, visibleColLayout := [],
    windowWidth := 80, windowHeight := 25 }

/-- A sheet with zero visible columns and left offset -1 (the state
`go-rightmost` produces via `leftVisibleColIndex = len(visibleCols)-1` when
every column is hidden). -/
def stC8 : LayoutState := { stC1 with cursorVisibleColIndex := 0, leftVisibleColIndex := -1 }

/-- A colorizer declaring style `red`. -/
def czRed : Colorizer := { precedence := 1, coloropt := some "red", func := 0 }

/-- A colorizer of the same precedence declaring style `blue`. -/
def czBlue : Colorizer := { precedence := 1, coloropt := some "blue", func := 1 }

/-- A predicate environment in which every colorizer predicate returns a
truthy value. -/
def interpTruthy : Nat → Unit → FRes := fun _ _ => FRes.truthy "x"

/-- A pending log entry for the loggable command `edit-cell`. -/
def cmdEditCell : LogEntry :=
  { sheet := "s", col := "", row := "", longname := "edit-cell",
    input := "", keystrokes := "e", comment := "", undofuncs := [] }

/-- A command-log state holding `cmdEditCell` as the pending command. -/
def cmdLogStW : CmdLogState :=
  { activeCommand := some cmdEditCell, globalLog := [], sheetLog := [],
    sessionLog := [], histfileConfigured := false }

/-! Theorems. -/

/-- C1: the claim fails on the code.  On a sheet with zero visible columns
and a prior column cursor of 2, `checkCursor` returns normally but leaves
`cursorVisibleColIndex = nVisibleCols - 1 = -1`: the `nRows == 0` guard of
the row clamp has no counterpart in the column clamp, so
`0 <= cursorVisibleColIndex < max(nVisibleCols,1)` is violated while the
docstring promises to keep the cursor in bounds. -/
theorem checkCursor_C1_zero_cols_negative_cursor :
    (checkCursor optsW stC1).toOption.map (fun s => s.cursorVisibleColIndex) = some (-1) := by
  decide

/-- C8: the claim fails on the code.  With zero visible columns and
`leftVisibleColIndex = -1` (the state `go-rightmost` creates when every
column is hidden), the clamped column cursor is 0, so `x = 1 > 0` and the
horizontal-scroll loop runs `min(self.visibleColLayout.keys())` on the empty
layout dict, raising ValueError — the spec requires `checkCursor` to
tolerate `nVisibleCols == 0` without raising. -/
theorem checkCursor_C8_empty_layout_valueError :
    checkCursor optsW stC8 = Except.error PyErr.valueError := rfl

/-- C7: the claim describes the intended stepped movement, but the code is
wrong: with `replay_movement` enabled and the cursor one step away from the
target, both `moveToRow` and `moveToCol` hit `while not self.delay(0.5)`
where `self` is undefined (the receiver is `vs`), raising NameError instead
of stepping with the replay delay and returning True. -/
theorem moveToRow_C7_replay_movement_nameError :
    moveToRow true 0 (some 1) = Except.error PyErr.nameError ∧
    moveToCol true 0 (some 1) = Except.error PyErr.nameError := by
  exact ⟨rfl, rfl⟩

theorem layoutCol_fst_keycol (o : Opts) (hv : Bool) (n i : Nat) (c : Col) :
    ((layoutCol o hv n i c).1).keycol = c.keycol := by
  simp only [layoutCol]
  split <;> rfl

theorem calcAux_entry_x_le (o : Opts) (ww left : Int) (hv : Bool) (nVis : Nat) :
    ∀ (cols : List Col) (i : Nat) (x : Int), x ≤ ww →
      ∀ e ∈ (calcAux o ww left hv nVis i x cols).1, e.2.1 ≤ ww := by
  intro cols
  induction cols with
  | nil => intro i x _ e he; simp [calcAux] at he
  | cons c rest ih =>
    intro i x hx e he
    simp only [calcAux] at he
    by_cases hadd : ((layoutCol o hv nVis i c).1.keycol || decide (left ≤ (i : Int))) = true
    · simp only [hadd, eq_self_iff_true, if_true] at he
      split at he
      · dsimp only at he
        simp only [List.mem_singleton] at he
        subst he; exact hx
      · rename_i hbreak
        dsimp only at he
        rcases List.mem_append.mp he with h1 | h2
        · simp only [List.mem_singleton] at h1
          subst h1; exact hx
        · exact ih (i + 1) _ (by omega) e h2
    · simp only [Bool.not_eq_true] at hadd
      simp only [hadd, Bool.false_eq_true, if_false] at he
      split at he
      · dsimp only at he; simp at he
      · rename_i hbreak
        dsimp only at he
        simp only [List.nil_append] at he
        exact ih (i + 1) _ (by omega) e he

/-- C2 (counterexample): with a one-cell-wide window and two key columns of
width 1, `calcColLayout` stores only the entry for key column 0 — the
`x > winWidth-1` break drops key column 1 from the output map, so "key
columns always appear in the output map" is false as stated. -/
theorem calcColLayout_C2_keycol_dropped :
    1 < stC2.visCols.length ∧
    (stC2.visCols.getD 1 plainColW).keycol = true ∧
    (calcColLayout optsW stC2).visibleColLayout.all (fun e => e.1 ≠ 1) = true := by
  decide

/-- C2 (amended): for every window width, visible-column list and width
assignment, every entry `[x, w]` stored by `calcColLayout` has
`x <= windowWidth`; and the first key column (key columns form a prefix of
the visible columns) always appears in the output map.  Key columns after
the first may be omitted once the accumulated layout width passes the
window width. -/
theorem calcColLayout_C2_amended (o : Opts) (st : LayoutState) :
    (∀ e ∈ (calcColLayout o st).visibleColLayout, e.2.1 ≤ (st.windowWidth : Int)) ∧
    (∀ c, st.visCols.head? = some c → c.keycol = true →
      ∃ w, (0, 0, w) ∈ (calcColLayout o st).visibleColLayout) := by
  constructor
  · intro e he
    simp only [calcColLayout] at he
    exact calcAux_entry_x_le o _ _ _ _ st.visCols 0 0 (by omega) e he
  · intro c hc hkey
    cases hvc : st.visCols with
    | nil => rw [hvc] at hc; simp at hc
    | cons c0 rest =>
      rw [hvc] at hc
      simp only [List.head?_cons, Option.some.injEq] at hc
      subst hc
      simp only [calcColLayout, hvc]
      simp only [calcAux, layoutCol_fst_keycol, hkey, Bool.true_or, if_pos]
      split
      · exact ⟨_, List.mem_singleton.mpr rfl⟩
      · exact ⟨_, List.mem_append.mpr (Or.inl (List.mem_singleton.mpr rfl))⟩

/-- C2 (amended) witness: the amended statement evaluated on the concrete
two-key-column state. -/
theorem calcColLayout_C2_amended_witness :
    (∀ e ∈ (calcColLayout optsW stC2).visibleColLayout, e.2.1 ≤ (stC2.windowWidth : Int)) ∧
    (∀ c, stC2.visCols.head? = some c → c.keycol = true →
      ∃ w, (0, 0, w) ∈ (calcColLayout optsW stC2).visibleColLayout) :=
  calcColLayout_C2_amended optsW stC2

theorem replayAux_cancel (entries : List ROutcome) (ext : Nat → Bool) (i0 : Nat)
    (hi : i0 < entries.length)
    (htrig : ext i0 = true ∨ entries.get ⟨i0, hi⟩ ≠ ROutcome.ok) :
    ∀ (fuel i : Nat) (tr : List Nat), i ≤ i0 → fuel = entries.length - i →
      (∀ j ∈ tr, j ≤ i0) →
      (replayAux entries ext fuel i true tr).1 = false ∧
      ∀ j ∈ (replayAux entries ext fuel i true tr).2.1, j ≤ i0 := by
  intro fuel
  induction fuel with
  | zero => intro i tr hii hfuel _; omega
  | succ fuel ih =>
    intro i tr hii hfuel htr
    have hilen : i < entries.length := Nat.lt_of_le_of_lt hii hi
    cases hext : ext i with
    | true =>
      have heq : replayAux entries ext (fuel + 1) i true tr = (false, tr, none) := by
        simp [replayAux, hext]
      rw [heq]
      exact ⟨rfl, htr⟩
    | false =>
      have hget : entries.get? i = some (entries.get ⟨i, hilen⟩) := List.get?_eq_get hilen
      cases ho : entries.get ⟨i, hilen⟩ with
      | ok =>
        have hne : i ≠ i0 := by
          intro h
          subst h
          rcases htrig with h1 | h1
          · rw [hext] at h1; exact Bool.false_ne_true h1
          · exact h1 ho
        have htr1 : ∀ j ∈ tr ++ [i], j ≤ i0 := by
          intro j hj
          rcases List.mem_append.mp hj with h1 | h1
          · exact htr j h1
          · simp only [List.mem_singleton] at h1; omega
        have := ih (i + 1) (tr ++ [i]) (by omega) (by omega) htr1
        simpa only [replayAux, hext, hget, ho, Bool.false_eq_true, if_false] using this
      | escaped =>
        simp only [replayAux, hext, hget, ho, Bool.false_eq_true, if_false]
        refine ⟨rfl, ?_⟩
        intro j hj
        rcases List.mem_append.mp hj with h1 | h1
        · exact htr j h1
        · simp only [List.mem_singleton] at h1; omega
      | raises =>
        simp only [replayAux, hext, hget, ho, Bool.false_eq_true, if_false]
        refine ⟨rfl, ?_⟩
        intro j hj
        rcases List.mem_append.mp hj with h1 | h1
        · exact htr j h1
        · simp only [List.mem_singleton] at h1; omega

/-- C3: cancelling a replay mid-stream — an external `stop-replay` cancel
observed before entry `i`, or entry `i` escaping, or entry `i` raising (an
unresolved sheet/row/column reference, or an exception from the replayed
command) — leaves `currentReplay` cleared (`false`) when `replay_sync`
returns, and no entry after `i` is ever handed to `replayOne`. -/
theorem replay_sync_C3_cancel (entries : List ROutcome) (ext : Nat → Bool) (i : Nat)
    (hi : i < entries.length)
    (htrig : ext i = true ∨ entries.get ⟨i, hi⟩ ≠ ROutcome.ok) :
    (replay_sync entries ext).1 = false ∧
    ∀ j ∈ (replay_sync entries ext).2.1, j ≤ i := by
  have := replayAux_cancel entries ext i hi htrig entries.length 0 []
      (Nat.zero_le i) (by omega) (by intro j hj; simp at hj)
  exact this

/-- C3 witness: a three-entry log whose second entry escapes: the replay
ends with `currentReplay` cleared and the third entry unexecuted. -/
theorem replay_sync_C3_cancel_witness :
    (1 < ([ROutcome.ok, ROutcome.escaped, ROutcome.ok] : List ROutcome).length) ∧
    (replay_sync [ROutcome.ok, ROutcome.escaped, ROutcome.ok] (fun _ => false)).1 = false ∧
    ∀ j ∈ (replay_sync [ROutcome.ok, ROutcome.escaped, ROutcome.ok]
        (fun _ => false)).2.1, j ≤ 1 :=
  ⟨by decide,
   replay_sync_C3_cancel [ROutcome.ok, ROutcome.escaped, ROutcome.ok] (fun _ => false) 1
     (by decide) (Or.inr (by decide))⟩

/-- C4: when a command finishes, the pending entry is discarded (both logs
unchanged) exactly when the command escaped, or its longname starts with a
configured non-logged prefix, or the acting sheet is the log sheet itself;
otherwise the (error-annotated) entry is appended to both the global log and
the acting sheet's per-sheet log.  The pending-command slot is cleared
either way. -/
theorem afterExecSheet_C4_log_iff (st : CmdLogState) (selfIsSheet escaped : Bool)
    (err : String) (cmd : LogEntry) (hcmd : st.activeCommand = some cmd) :
    (afterExecSheet st selfIsSheet escaped err).activeCommand = none ∧
    ((escaped = true ∨ nonLogged.any (fun n => strStartsWith cmd.longname n) = true ∨
        selfIsSheet = true) ↔
      ((afterExecSheet st selfIsSheet escaped err).globalLog = st.globalLog ∧
       (afterExecSheet st selfIsSheet escaped err).sheetLog = st.sheetLog)) ∧
    (escaped = false → nonLogged.any (fun n => strStartsWith cmd.longname n) = false →
      selfIsSheet = false →
      (afterExecSheet st selfIsSheet escaped err).globalLog =
        st.globalLog ++ [annotateErr cmd err] ∧
      (afterExecSheet st selfIsSheet escaped err).sheetLog =
        st.sheetLog ++ [annotateErr cmd err]) := by
  have hname : ∀ e : String, (annotateErr cmd e).longname = cmd.longname := by
    intro e
    simp only [annotateErr]
    split <;> rfl
  cases escaped <;> cases selfIsSheet <;>
    cases hA : nonLogged.any (fun n => strStartsWith cmd.longname n) <;>
      · simp only [afterExecSheet, hcmd, isLoggableCommand, hname, hA]
        simp

/-- C4 witness: a loggable command (`edit-cell`) finishing cleanly on an
ordinary sheet: the pending slot is cleared and the entry lands in both
logs. -/
theorem afterExecSheet_C4_log_iff_witness :
    cmdLogStW.activeCommand = some cmdEditCell ∧
    (afterExecSheet cmdLogStW false false "").activeCommand = none ∧
    ((afterExecSheet cmdLogStW false false "").globalLog = cmdLogStW.globalLog ++
        [annotateErr cmdEditCell ""] ∧
      (afterExecSheet cmdLogStW false false "").sheetLog = cmdLogStW.sheetLog ++
        [annotateErr cmdEditCell ""]) :=
  ⟨rfl,
   (afterExecSheet_C4_log_iff cmdLogStW false false "" cmdEditCell rfl).1,
   (afterExecSheet_C4_log_iff cmdLogStW false false "" cmdEditCell rfl).2.2
     rfl (by decide) rfl⟩

theorem insDesc_perm (x : Colorizer) (l : List Colorizer) : (insDesc x l).Perm (x :: l) := by
  induction l with
  | nil => simp [insDesc]
  | cons y ys ih =>
    simp only [insDesc]
    split
    · exact (ih.cons y).trans (List.Perm.swap x y ys)
    · exact List.Perm.refl _

theorem sortDesc_perm (l : List Colorizer) : (sortDesc l).Perm l := by
  induction l with
  | nil => exact List.Perm.refl _
  | cons x xs ih => exact (insDesc_perm x (sortDesc xs)).trans (ih.cons x)

theorem insDesc_pairwise (x : Colorizer) (l : List Colorizer)
    (h : l.Pairwise (fun a b => b.precedence ≤ a.precedence)) :
    (insDesc x l).Pairwise (fun a b => b.precedence ≤ a.precedence) := by
  induction l with
  | nil => simp [insDesc]
  | cons y ys ih =>
    rcases List.pairwise_cons.mp h with ⟨hy, hys⟩
    simp only [insDesc]
    split
    · rename_i hlt
      refine List.pairwise_cons.mpr ⟨?_, ih hys⟩
      intro z hz
      rcases List.mem_cons.mp ((insDesc_perm x ys).mem_iff.mp hz) with h1 | h1
      · subst h1; omega
      · exact hy z h1
    · rename_i hge
      refine List.pairwise_cons.mpr ⟨?_, h⟩
      intro z hz
      rcases List.mem_cons.mp hz with h1 | h1
      · subst h1; omega
      · have := hy z h1; omega

theorem sortDesc_pairwise (l : List Colorizer) :
    (sortDesc l).Pairwise (fun a b => b.precedence ≤ a.precedence) := by
  induction l with
  | nil => simp [sortDesc]
  | cons x xs ih => exact insDesc_pairwise x (sortDesc xs) ih

theorem insDesc_filter (p : Int) (x : Colorizer) (l : List Colorizer) :
    (insDesc x l).filter (fun c => c.precedence == p) =
      if x.precedence == p then x :: l.filter (fun c => c.precedence == p)
      else l.filter (fun c => c.precedence == p) := by
  induction l with
  | nil => cases hx : x.precedence == p <;> simp [insDesc, List.filter, hx]
  | cons y ys ih =>
    simp only [insDesc]
    split
    · rename_i hlt
      cases hy : y.precedence == p with
      | true =>
        have h2 : y.precedence = p := by simpa using hy
        cases hx : x.precedence == p with
        | true =>
          have h1 : x.precedence = p := by simpa using hx
          omega
        | false => simp [List.filter, hy, ih, hx]
      | false =>
        cases hx : x.precedence == p <;> simp [List.filter, hy, ih, hx]
    · rename_i hge
      cases hx : x.precedence == p <;> simp [List.filter, hx]

theorem sortDesc_filter (p : Int) (l : List Colorizer) :
    (sortDesc l).filter (fun c => c.precedence == p) =
      l.filter (fun c => c.precedence == p) := by
  induction l with
  | nil => simp [sortDesc]
  | cons x xs ih =>
    simp only [sortDesc, insDesc_filter, ih]
    cases hx : x.precedence == p <;> simp [List.filter, hx]

/-- C5 (counterexample): the claim's "among colorizers of equal precedence,
in declaration order" is false.  Colorizers are collected into a Python
`set()`, whose iteration order is unspecified; for the declaration list
`[czRed, czBlue]` (equal precedence) the reversed enumeration
`[czBlue, czRed]` is a valid iteration order of the same set, and `colorize`
composes the two styles in the opposite order. -/
theorem colorize_C5_set_order_cex :
    ([czBlue, czRed] : List Colorizer).Perm ([czRed, czBlue].dedup) ∧
    colorize interpTruthy [czBlue, czRed] () ≠ colorize interpTruthy [czRed, czBlue] () := by
  exact ⟨by decide, by decide⟩

/-- C5 (amended): for a fixed enumeration of the collected colorizer set
(the `lru_cache` on `getColorizers` freezes one enumeration per sheet),
`colorize` is a pure function of the enumeration and the inputs: it applies
exactly the colorizers of the enumeration (a permutation), sorted by
precedence descending, and the stable sort keeps equal-precedence colorizers
in enumeration order — the set's iteration order, not declaration order. -/
theorem colorize_C5_amended (α : Type) (interp : Nat → α → FRes) (inp : α)
    (enum : List Colorizer) :
    colorize interp enum inp = colorStack interp (getColorizers enum) inp ∧
    (getColorizers enum).Pairwise (fun a b => b.precedence ≤ a.precedence) ∧
    (∀ p : Int, (getColorizers enum).filter (fun c => c.precedence == p) =
      enum.filter (fun c => c.precedence == p)) ∧
    (getColorizers enum).Perm enum :=
  ⟨rfl, sortDesc_pairwise enum, fun p => sortDesc_filter p enum, sortDesc_perm enum⟩

theorem mem_keyCols_keycol (cs : List Col) (c : Col) (hc : c ∈ keyCols cs) :
    c.keycol = true := by
  have hm := List.mem_filter.mp hc
  have h2 := hm.2
  simp only [Bool.and_eq_true] at h2
  exact h2.1

theorem copyCol_map (l : List Col) : l.map copyCol = l := by
  induction l with
  | nil => rfl
  | cons c t ih => simp [copyCol, ih]

theorem keyCols_map_setKey (cs : List Col) :
    (keyCols cs).map (fun c => setKeyFlag (copyCol c)) = keyCols cs := by
  have h : ∀ c ∈ keyCols cs, setKeyFlag (copyCol c) = c := by
    intro c hc
    have hk : c.keycol = true := mem_keyCols_keycol cs c hc
    cases c
    simp only [setKeyFlag, copyCol]
    simp_all
  calc (keyCols cs).map (fun c => setKeyFlag (copyCol c))
      = (keyCols cs).map id := List.map_congr_left h
    _ = keyCols cs := List.map_id _

/-- C6: the design copy of a sheet has zero rows; its column list is the
visible key columns (fresh copies, key flag re-established — a no-op on
values since they are already key columns) followed by the remaining
columns in order; and the cursor and scroll positions are at the origin. -/
theorem sheetCopy_C6_design (ρ : Type) (s : CSheet ρ) :
    (sheetCopy s).rows = [] ∧
    (sheetCopy s).columns =
      keyCols s.columns ++ s.columns.filter (fun c => !(keyCols s.columns).contains c) ∧
    ((sheetCopy s).columns.take (keyCols s.columns).length).all (fun c => c.keycol) = true ∧
    (sheetCopy s).cursorRowIndex = 0 ∧ (sheetCopy s).topRowIndex = 0 ∧
    (sheetCopy s).cursorVisibleColIndex = 0 ∧ (sheetCopy s).leftVisibleColIndex = 0 := by
  have hcols : (sheetCopy s).columns =
      keyCols s.columns ++ s.columns.filter (fun c => !(keyCols s.columns).contains c) := by
    simp only [sheetCopy, keyCols_map_setKey, copyCol_map]
  refine ⟨rfl, hcols, ?_, rfl, rfl, rfl, rfl⟩
  rw [hcols, List.take_left]
  rw [List.all_eq_true]
  intro c hc
  exact mem_keyCols_keycol s.columns c hc

theorem pyInsert_length {α : Type} (xs : List α) (i : Int) (x : α) :
    (pyInsert xs i x).length = xs.length + 1 := by
  simp only [pyInsert, List.length_append, List.length_cons, List.length_take,
    List.length_drop]
  omega

theorem pyInsert_mem {α : Type} (xs : List α) (i : Int) (x : α) : x ∈ pyInsert xs i x := by
  simp [pyInsert]

theorem json_fold_columns {τ : Type} (deduce : JVal → τ) :
    ∀ (kvs : List (String × JVal)) (cn : List String) (cols : List (JCol τ)),
      (kvs.map Prod.fst).Nodup →
      (kvs.foldl (jsonStep deduce) (cn, cols)).2 =
      cols ++ (kvs.filter (fun kv => !cn.contains kv.1)).map
        (fun kv => (⟨kv.1, deduce kv.2⟩ : JCol τ)) := by
  intro kvs
  induction kvs with
  | nil => intro cn cols _; simp
  | cons kv rest ih =>
    intro cn cols hnd
    rw [List.map_cons] at hnd
    obtain ⟨hk, hrest⟩ := List.nodup_cons.mp hnd
    cases hc : cn.contains kv.1 with
    | true =>
      simp only [List.foldl_cons, jsonStep, hc, if_true, List.filter_cons, Bool.not_true,
        Bool.false_eq_true, if_false]
      exact ih cn cols hrest
    | false =>
      simp only [List.foldl_cons, jsonStep, hc, Bool.false_eq_true, if_false,
        List.filter_cons, Bool.not_false, if_true]
      rw [ih (cn ++ [kv.1]) (cols ++ [({ name := kv.1, ty := deduce kv.2 } : JCol τ)]) hrest]
      have hfilter : rest.filter (fun kv2 => !(cn ++ [kv.1]).contains kv2.1) =
          rest.filter (fun kv2 => !cn.contains kv2.1) := by
        apply List.filter_congr
        intro kv2 hkv2
        have hne : kv2.1 ≠ kv.1 := by
          intro heq
          exact hk (heq ▸ List.mem_map.mpr ⟨kv2, hkv2, rfl⟩)
        have hcontains : (cn ++ [kv.1]).contains kv2.1 = cn.contains kv2.1 := by
          cases hmem : cn.contains kv2.1 with
          | true => exact List.elem_iff.mpr (List.mem_append_left _ (List.elem_iff.mp hmem))
          | false =>
            cases hx : (cn ++ [kv.1]).contains kv2.1 with
            | false => rfl
            | true =>
              exfalso
              rcases List.mem_append.mp (List.elem_iff.mp hx) with h1 | h1
              · have h2 : cn.contains kv2.1 = true := List.elem_iff.mpr h1
                rw [hmem] at h2
                exact Bool.false_ne_true h2
              · simp only [List.mem_singleton] at h1
                exact hne h1
        rw [hcontains]
      rw [hfilter]
      simp

/-- C10: `JsonSheet.addRow` always inserts the row (appending when no index
is given); a dict row creates exactly one new column per previously unseen
key, appended after the existing columns in the dict's key order, and is
returned; a non-dict row creates no columns and the method returns None. -/
theorem jsonAddRow_C10 (τ : Type) (deduce : JVal → τ) (st : JState τ) (idx : Option Int)
    (row : JRow) :
    ((jsonAddRow deduce st row idx).1).rows.length = st.rows.length + 1 ∧
    row ∈ ((jsonAddRow deduce st row idx).1).rows ∧
    (idx = none → ((jsonAddRow deduce st row idx).1).rows = st.rows ++ [row]) ∧
    (∀ kvs, row = JRow.obj kvs → (kvs.map Prod.fst).Nodup →
      ((jsonAddRow deduce st row idx).1).columns =
        st.columns ++ (kvs.filter (fun kv => !st.colnames.contains kv.1)).map
          (fun kv => (⟨kv.1, deduce kv.2⟩ : JCol τ)) ∧
      (jsonAddRow deduce st row idx).2 = some row) ∧
    (∀ v, row = JRow.other v →
      ((jsonAddRow deduce st row idx).1).columns = st.columns ∧
      (jsonAddRow deduce st row idx).2 = none) := by
  have hrows : ((jsonAddRow deduce st row idx).1).rows = sheetAddRow st.rows row idx := by
    cases row <;> rfl
  refine ⟨?_, ?_, ?_, ?_, ?_⟩
  · rw [hrows]
    cases idx with
    | none => simp [sheetAddRow]
    | some i => simp [sheetAddRow, pyInsert_length]
  · rw [hrows]
    cases idx with
    | none => simp [sheetAddRow]
    | some i => exact pyInsert_mem st.rows i row
  · intro hidx; subst hidx; rw [hrows]; rfl
  · intro kvs hrow hnd
    subst hrow
    constructor
    · simp only [jsonAddRow]
      exact json_fold_columns deduce kvs st.colnames st.columns hnd
    · rfl
  · intro v hrow
    subst hrow
    exact ⟨rfl, rfl⟩

/-- C10 witness: adding the dict row with single key `a` to an empty
JsonSheet appends the row and creates one column named `a`. -/
theorem jsonAddRow_C10_witness :
    ((["a"] : List String).Nodup) ∧
    ((jsonAddRow (fun _ => ()) (⟨[], [], []⟩ : JState Unit)
        (JRow.obj [("a", JVal.null)]) none).1).rows.length = 0 + 1 ∧
    (jsonAddRow (fun _ => ()) (⟨[], [], []⟩ : JState Unit)
        (JRow.obj [("a", JVal.null)]) none).2 = some (JRow.obj [("a", JVal.null)]) :=
  ⟨by decide,
   (jsonAddRow_C10 Unit (fun _ => ()) ⟨[], [], []⟩ none (JRow.obj [("a", JVal.null)])).1,
   ((jsonAddRow_C10 Unit (fun _ => ()) ⟨[], [], []⟩ none
       (JRow.obj [("a", JVal.null)])).2.2.2.1 [("a", JVal.null)] rfl (by simp)).2⟩

theorem words_nil : words [] = [] := by rw [words]

theorem words_cons (c : Char) (cs : List Char) :
    words (c :: cs) = if isWS c then words cs
      else (c :: cs.takeWhile (fun d => !isWS d)) :: words (cs.dropWhile (fun d => !isWS d)) := by
  rw [words]

theorem dropWhile_length_le {α : Type} (p : α → Bool) (l : List α) :
    (l.dropWhile p).length ≤ l.length := by
  induction l with
  | nil => simp [List.dropWhile]
  | cons a t ih =>
    simp only [List.dropWhile]
    cases p a with
    | false => simp
    | true => simpa using Nat.le_succ_of_le ih

theorem takeWhile_append_stop {α : Type} (p : α → Bool) :
    ∀ (xs ys : List α), (∃ x ∈ xs, p x = false) →
      (xs ++ ys).takeWhile p = xs.takeWhile p ∧
      (xs ++ ys).dropWhile p = xs.dropWhile p ++ ys := by
  intro xs
  induction xs with
  | nil => intro ys h; simp at h
  | cons x xs ih =>
    intro ys h
    cases hp : p x with
    | true =>
      have h2 : ∃ a ∈ xs, p a = false := by
        rcases h with ⟨a, ha, hpa⟩
        rcases List.mem_cons.mp ha with h1 | h1
        · subst h1; rw [hp] at hpa; exact absurd hpa (by simp)
        · exact ⟨a, h1, hpa⟩
      have := ih ys h2
      constructor
      · simp only [List.cons_append, List.takeWhile_cons, hp, if_true, this.1]
      · simp only [List.cons_append, List.dropWhile_cons, hp, if_true, this.2]
    | false =>
      constructor
      · simp [List.takeWhile_cons, hp]
      · simp [List.dropWhile_cons, hp]

theorem words_chars_aux :
    ∀ (n : Nat) (s : List Char), s.length ≤ n →
      ∀ u ∈ words s, u ≠ [] ∧ ∀ c ∈ u, isWS c = false := by
  intro n
  induction n with
  | zero =>
    intro s hs u hu
    rw [List.length_eq_zero.mp (Nat.le_zero.mp hs)] at hu
    rw [words_nil] at hu
    simp at hu
  | succ n ih =>
    intro s hs u hu
    cases s with
    | nil => rw [words_nil] at hu; simp at hu
    | cons c cs =>
      rw [words_cons] at hu
      simp only [List.length_cons, Nat.succ_le_succ_iff] at hs
      by_cases hws : isWS c = true
      · rw [if_pos hws] at hu
        exact ih cs hs u hu
      · rw [if_neg hws] at hu
        have hws' : isWS c = false := by simpa using hws
        rcases List.mem_cons.mp hu with h1 | h1
        · subst h1
          refine ⟨by simp, ?_⟩
          intro d hd
          rcases List.mem_cons.mp hd with h2 | h2
          · subst h2; exact hws'
          · have := List.mem_takeWhile_imp h2
            simpa using this
        · exact ih (cs.dropWhile (fun d => !isWS d))
            (Nat.le_trans (dropWhile_length_le _ _) hs) u h1

theorem words_chars (s : List Char) :
    ∀ u ∈ words s, u ≠ [] ∧ ∀ c ∈ u, isWS c = false :=
  words_chars_aux s.length s (Nat.le_refl _)

theorem words_append_ws_aux (c0 : Char) (hc0 : isWS c0 = true) :
    ∀ (n : Nat) (a b : List Char), a.length ≤ n →
      words (a ++ c0 :: b) = words a ++ words b := by
  intro n
  induction n with
  | zero =>
    intro a b ha
    rw [List.length_eq_zero.mp (Nat.le_zero.mp ha)]
    simp only [List.nil_append, words_nil]
    rw [words_cons, if_pos hc0]
  | succ n ih =>
    intro a b ha
    cases a with
    | nil =>
      simp only [List.nil_append, words_nil]
      rw [words_cons, if_pos hc0]
    | cons c cs =>
      simp only [List.length_cons, Nat.succ_le_succ_iff] at ha
      by_cases hws : isWS c = true
      · rw [List.cons_append, words_cons, if_pos hws, words_cons, if_pos hws]
        exact ih cs b ha
      · have hws' : isWS c = false := by simpa using hws
        rw [List.cons_append, words_cons, if_neg hws, words_cons, if_neg hws]
        by_cases hall : ∀ d ∈ cs, (!isWS d) = true
        · have htk : (cs ++ c0 :: b).takeWhile (fun d => !isWS d) = cs := by
            rw [List.takeWhile_append_of_pos hall]
            have : (c0 :: b).takeWhile (fun d => !isWS d) = [] := by
              simp [List.takeWhile_cons, hc0]
            rw [this, List.append_nil]
          have hdk : (cs ++ c0 :: b).dropWhile (fun d => !isWS d) = c0 :: b := by
            rw [List.dropWhile_append_of_pos hall]
            simp [List.dropWhile_cons, hc0]
          have htk2 : cs.takeWhile (fun d => !isWS d) = cs := List.takeWhile_eq_self_iff.mpr hall
          have hdk2 : cs.dropWhile (fun d => !isWS d) = [] := List.dropWhile_eq_nil_iff.mpr hall
          rw [htk, hdk, htk2, hdk2, words_nil]
          rw [words_cons, if_pos hc0]
          simp
        · have hex : ∃ d ∈ cs, (fun d => !isWS d) d = false := by
            push_neg at hall
            rcases hall with ⟨d, hd, hpd⟩
            exact ⟨d, hd, by simpa using hpd⟩
          have hst := takeWhile_append_stop (fun d => !isWS d) cs (c0 :: b) hex
          rw [hst.1, hst.2]
          have := ih (cs.dropWhile (fun d => !isWS d)) b
            (Nat.le_trans (dropWhile_length_le _ _) ha)
          rw [this, List.cons_append]

theorem words_append_ws (c0 : Char) (hc0 : isWS c0 = true) (a b : List Char) :
    words (a ++ c0 :: b) = words a ++ words b :=
  words_append_ws_aux c0 hc0 a.length a b (Nat.le_refl _)

theorem words_joinWith (sep : Char) (hsep : isWS sep = true) :
    ∀ ws : List (List Char), words (joinWith sep ws) = ws.flatMap words := by
  intro ws
  induction ws with
  | nil => simp [joinWith, words_nil]
  | cons w ws ih =>
    cases ws with
    | nil => simp [joinWith]
    | cons w2 rest =>
      have hj : joinWith sep (w :: w2 :: rest) = w ++ sep :: joinWith sep (w2 :: rest) := rfl
      rw [hj, words_append_ws sep hsep, ih]
      simp

theorem words_of_single (u : List Char) (hne : u ≠ [])
    (hch : ∀ c ∈ u, isWS c = false) : words u = [u] := by
  cases u with
  | nil => exact absurd rfl hne
  | cons c cs =>
    rw [words_cons, if_neg (by simp [hch c (List.mem_cons_self c cs)])]
    have htk : cs.takeWhile (fun d => !isWS d) = cs :=
      List.takeWhile_eq_self_iff.mpr (by
        intro d hd
        simp [hch d (List.mem_cons_of_mem c hd)])
    have hdk : cs.dropWhile (fun d => !isWS d) = [] :=
      List.dropWhile_eq_nil_iff.mpr (by
        intro d hd
        simp [hch d (List.mem_cons_of_mem c hd)])
    rw [htk, hdk, words_nil]

theorem splitNl_ne_nil (s : List Char) : splitNl s ≠ [] := by
  cases s with
  | nil => simp [splitNl]
  | cons c cs =>
    simp only [splitNl]
    split
    · simp
    · split <;> simp

theorem joinWith_splitNl (s : List Char) : joinWith '\n' (splitNl s) = s := by
  induction s with
  | nil => simp [splitNl, joinWith]
  | cons c cs ih =>
    simp only [splitNl]
    by_cases hc : c = '\n'
    · rw [if_pos hc]
      cases hr : splitNl cs with
      | nil => exact absurd hr (splitNl_ne_nil cs)
      | cons h t =>
        rw [hr] at ih
        have : joinWith '\n' ([] :: h :: t) = [] ++ '\n' :: joinWith '\n' (h :: t) := rfl
        rw [this, ih, hc]
        simp
    · rw [if_neg hc]
      cases hr : splitNl cs with
      | nil => exact absurd hr (splitNl_ne_nil cs)
      | cons h t =>
        rw [hr] at ih
        cases t with
        | nil =>
          have h1 : joinWith '\n' [c :: h] = c :: h := rfl
          have h2 : joinWith '\n' [h] = h := rfl
          rw [h2] at ih
          rw [h1, ih]
        | cons h2 t2 =>
          have e1 : joinWith '\n' ((c :: h) :: h2 :: t2) =
              (c :: h) ++ '\n' :: joinWith '\n' (h2 :: t2) := rfl
          have e2 : joinWith '\n' (h :: h2 :: t2) = h ++ '\n' :: joinWith '\n' (h2 :: t2) := rfl
          rw [e2] at ih
          rw [e1, ← ih]
          simp

theorem words_flatMap_splitNl (s : List Char) : (splitNl s).flatMap words = words s := by
  conv_rhs => rw [← joinWith_splitNl s]
  rw [words_joinWith '\n' (by decide)]

theorem words_flatMap_pySplitlines (s : List Char) :
    (pySplitlines s).flatMap words = words s := by
  cases s with
  | nil => simp [pySplitlines, words_nil]
  | cons c cs =>
    simp only [pySplitlines]
    split
    · rename_i hlast
      have hne := splitNl_ne_nil (c :: cs)
      have hlast2 : (splitNl (c :: cs)).getLast hne = [] := by
        have := List.getLast?_eq_getLast (splitNl (c :: cs)) hne
        rw [this] at hlast
        exact (Option.some.injEq _ _).mp hlast
      have hsplit : (splitNl (c :: cs)).dropLast ++ [[]] = splitNl (c :: cs) := by
        conv_rhs => rw [← List.dropLast_concat_getLast hne]
        rw [hlast2]
      calc (splitNl (c :: cs)).dropLast.flatMap words
          = (splitNl (c :: cs)).dropLast.flatMap words ++ ([[]] : List (List Char)).flatMap words := by
            simp [words_nil]
        _ = ((splitNl (c :: cs)).dropLast ++ [[]]).flatMap words := by
            rw [List.flatMap_append]
        _ = (splitNl (c :: cs)).flatMap words := by rw [hsplit]
        _ = words (c :: cs) := words_flatMap_splitNl (c :: cs)
    · exact words_flatMap_splitNl (c :: cs)

theorem greedy_flat (w : Int) :
    ∀ (xs cur : List (List Char)),
      (greedy w cur xs).flatMap (fun g => g) = cur ++ xs := by
  intro xs
  induction xs with
  | nil =>
    intro cur
    simp only [greedy]
    split
    · rename_i h; simp [h]
    · simp
  | cons x xs ih =>
    intro cur
    simp only [greedy]
    split
    · rename_i h
      rw [ih [x], h]
      simp
    · split
      · rw [ih (cur ++ [x])]
        simp
      · simp only [List.flatMap_cons]
        rw [ih [x]]
        simp

theorem flatMap_id_of_mem {α : Type} (f : α → List α) :
    ∀ (l : List α), (∀ u ∈ l, f u = [u]) → l.flatMap f = l := by
  intro l
  induction l with
  | nil => intro _; rfl
  | cons x t ih =>
    intro h
    simp only [List.flatMap_cons, h x (List.mem_cons_self x t),
      ih (fun u hu => h u (List.mem_cons_of_mem x hu))]
    simp

theorem wrap_words (w : Int) (L : List Char) :
    (textwrapWrap w L).flatMap words = words L := by
  simp only [textwrapWrap]
  have h1 : ((greedy w [] (words L)).map (joinWith ' ')).flatMap words
      = (greedy w [] (words L)).flatMap (fun g => words (joinWith ' ' g)) := by
    rw [List.flatMap_def, List.map_map, ← List.flatMap_def]
    rfl
  rw [h1]
  have h2 : (greedy w [] (words L)).flatMap (fun g => words (joinWith ' ' g))
      = (greedy w [] (words L)).flatMap (fun g => g.flatMap words) :=
    congrArg _ (funext (fun g => words_joinWith ' ' (by decide) g))
  rw [h2]
  have h3 : (greedy w [] (words L)).flatMap (fun g => g.flatMap words)
      = ((greedy w [] (words L)).flatMap (fun g => g)).flatMap words :=
    (List.flatMap_assoc _ (fun g => g) words).symm
  rw [h3, greedy_flat w (words L) [], List.nil_append]
  apply flatMap_id_of_mem
  intro u hu
  have hc := words_chars L u hu
  exact words_of_single u hc.1 hc.2

/-- C9: with wrapping enabled and width w > 0, joining the lines of
`splitcell(s, w)` with spaces and normalizing whitespace reproduces the
whitespace-normalized original (every non-whitespace character survives and
no word is broken); with wrapping disabled or w <= 0, `splitcell` returns
exactly `[s]`. -/
theorem splitcell_C9 (s : List Char) (w : Int) :
    (0 < w → normalizeWS (joinWith ' ' (splitcell s w true)) = normalizeWS s) ∧
    (∀ b : Bool, w ≤ 0 ∨ b = false → splitcell s w b = [s]) := by
  constructor
  · intro hw
    have hsc : splitcell s w true = (pySplitlines s).flatMap (textwrapWrap w) := by
      simp only [splitcell, Bool.not_true, Bool.or_false]
      rw [if_neg]
      simp only [decide_eq_true_eq]
      omega
    have key : words (joinWith ' ' (splitcell s w true)) = words s := by
      rw [words_joinWith ' ' (by decide), hsc, List.flatMap_assoc]
      have hfe : (fun L => (textwrapWrap w L).flatMap words) = words :=
        funext (fun L => wrap_words w L)
      rw [hfe]
      exact words_flatMap_pySplitlines s
    simp only [normalizeWS, key]
  · intro b hb
    simp only [splitcell]
    rcases hb with h | h
    · rw [if_pos]
      simp [h]
    · subst h
      rw [if_pos]
      simp

/-- C9 witness: the round trip on the two-word cell `ab` at width 2, and the
untouched single line at width 0. -/
theorem splitcell_C9_witness :
    ((0 : Int) < 2) ∧
    normalizeWS (joinWith ' ' (splitcell ['a', ' ', 'b'] 2 true)) =
      normalizeWS ['a', ' ', 'b'] ∧
    splitcell ['a', ' ', 'b'] 0 true = [['a', ' ', 'b']] :=
  ⟨by decide, (splitcell_C9 ['a', ' ', 'b'] 2).1 (by decide),
   (splitcell_C9 ['a', ' ', 'b'] 0).2 true (Or.inl (by decide))⟩

end VisiData
